import Mathlib

/-!
Verification of the Ising-model Monte Carlo engine in
`src/src/Ising_Model/IsingModel.py` (class `IsingModel`).

Embedding conventions:
* Spins are a `List ℤ` (the numpy array `self.spins`); slot `i` is read with
  `getD i 0` and written with `List.set` (Python `self.spins[node] *= -1`).
* The graph is kept as the number of nodes `nNodes` (`self.n_nodes`) and the
  edge list `edges`, one entry per undirected networkx edge, with endpoints
  already resolved to integer slots.  In the source the resolution
  `self.node_to_idx[edge[k]]` happens on every read inside
  `calculate_energy`; since the mapping is built once in `__init__` and never
  mutated, resolving once at construction (`ising_init`) is equivalent.  The
  node/slot mapping itself is modelled separately by `node_to_idx` /
  `idx_to_node` below.
* Randomness is made explicit.  `np.random.choice([-1, 1], size=n)` becomes a
  Boolean draw per slot (`spin_choice`).  The Metropolis comparison
  `random.random() >= np.exp(-delta_energy / temperature)` is abstracted by a
  Boolean family `dec : ℕ → Bool` giving, for each slot of a sweep, the
  outcome of that comparison; theorems quantify over the real draw
  `u : ℕ → ℝ` and the temperature `T` and relate `dec` to
  `Real.exp (-ΔE / T) ≤ u` by hypothesis, which covers every possible
  sequence of draws.
-/

namespace IsingSim

/-- State of `IsingModel`: `self.n_nodes`, the slot-resolved edge list of
`self.graph`, and `self.spins`. -/
structure IsingModel where
  nNodes : ℕ
  edges : List (ℕ × ℕ)
  spins : List ℤ
  deriving DecidableEq, Repr

/-- `np.random.choice([-1, 1], size=n)`: one ±1 value per slot, driven by an
explicit Boolean draw. -/
def spin_choice (draw : ℕ → Bool) (n : ℕ) : List ℤ :=
  (List.range n).map (fun i => if draw i then 1 else -1)

/-- `IsingModel.__init__`: record the node count, resolve each networkx edge
to a pair of slots through the freshly built `node_to_idx`, and draw a random
±1 spin per node.  The source performs no validation of any kind. -/
def ising_init (nodes : List ℕ) (edges : List (ℕ × ℕ)) (draw : ℕ → Bool) :
    IsingModel :=
  { nNodes := nodes.length
    edges := edges.map (fun e => (nodes.indexOf e.1, nodes.indexOf e.2))
    spins := spin_choice draw nodes.length }

/-- `IsingModel.calculate_energy`: `energy = 0`, then for each edge of the
graph (each undirected edge appears exactly once in `graph.edges()`)
`energy -= s1 * s2`. -/
def calculate_energy (m : IsingModel) : ℤ :=
  m.edges.foldl (fun energy e => energy - m.spins.getD e.1 0 * m.spins.getD e.2 0) 0

/-- `IsingModel.calculate_magnetization`: `np.sum(self.spins)`. -/
def calculate_magnetization (m : IsingModel) : ℤ :=
  m.spins.sum

/-- `IsingModel.flip_spin`: `self.spins[node] *= -1`. -/
def flip_spin (m : IsingModel) (node : ℕ) : IsingModel :=
  { m with spins := m.spins.set node (m.spins.getD node 0 * (-1)) }

/-- Energy change of the trial flip at `node`: `new_energy - current_energy`
in `monte_carlo_step`. -/
def delta_energy (m : IsingModel) (node : ℕ) : ℤ :=
  calculate_energy (flip_spin m node) - calculate_energy m

/-- One iteration of the loop body of `IsingModel.monte_carlo_step`:
record the current energy, flip `node`, recompute the energy, and flip back
when `delta_energy > 0` and the drawn comparison
`random.random() >= np.exp(-delta_energy / temperature)` (abstracted as
`dec node`) holds. -/
def mc_trial (dec : ℕ → Bool) (m : IsingModel) (node : ℕ) : IsingModel :=
  let current_energy := calculate_energy m
  let flipped := flip_spin m node
  let new_energy := calculate_energy flipped
  if new_energy - current_energy > 0 ∧ dec node = true then
    flip_spin flipped node
  else
    flipped

/-- `IsingModel.monte_carlo_step`: `for node in range(self.n_nodes)` run one
trial per slot, in ascending slot order, on the current (already mutated)
state. -/
def monte_carlo_step (dec : ℕ → Bool) (m : IsingModel) : IsingModel :=
  (List.range m.nNodes).foldl (mc_trial dec) m

/-- State of the sweep after the trials at slots `0, 1, …, k-1` have run, in
that order. -/
def sweepAux (dec : ℕ → Bool) (m : IsingModel) : ℕ → IsingModel
  | 0 => m
  | k + 1 => mc_trial dec (sweepAux dec m k) k

/-- Neighbor slots of `slot`, read off the edge list exactly as networkx
adjacency would list them: for each edge touching `slot`, the opposite
endpoint (for a self-loop, `slot` itself, once). -/
def neighbors (edges : List (ℕ × ℕ)) (slot : ℕ) : List ℕ :=
  match edges with
  | [] => []
  | e :: rest =>
      if e.1 = slot then e.2 :: neighbors rest slot
      else if e.2 = slot then e.1 :: neighbors rest slot
      else neighbors rest slot

/-- Written from the spec (§4.4), for the refinement claim: the O(degree)
energy delta of flipping exactly `slot`,
`2 * J * s_slot * Σ_{j ∈ neighbors(slot)} s_j`, with the coupling constant
at its default `J = 1`.  The source has no such routine; it recomputes the
full energy instead. -/
def local_energy_delta (m : IsingModel) (slot : ℕ) : ℤ :=
  2 * 1 * m.spins.getD slot 0
    * ((neighbors m.edges slot).map (fun j => m.spins.getD j 0)).sum

/-- Written from the spec (§4.4), for the refinement claim: the energy
functional `-J * Σ_{(i,j)∈edges} s_i * s_j`, each undirected edge counted
exactly once. -/
def total_energy_spec (J : ℤ) (m : IsingModel) : ℤ :=
  -(J * (m.edges.map (fun e => m.spins.getD e.1 0 * m.spins.getD e.2 0)).sum)

/-- One trial of the spec-mandated sweep that uses `local_energy_delta`
instead of full recomputation; the accept/reject comparison outcome is the
same abstract draw `dec node`. -/
def mc_trial_delta (dec : ℕ → Bool) (m : IsingModel) (node : ℕ) : IsingModel :=
  if local_energy_delta m node > 0 ∧ dec node = true then m
  else flip_spin m node

/-- The spec-mandated sweep built from `mc_trial_delta`. -/
def monte_carlo_step_delta (dec : ℕ → Bool) (m : IsingModel) : IsingModel :=
  (List.range m.nNodes).foldl (mc_trial_delta dec) m

/-- The spin state `simulate` reaches for the temperature at position `t` of
the schedule: reset `self.spins` to a fresh random ±1 draw, then run
`steps_per_temperature` Monte Carlo sweeps. -/
def sim_state (m : IsingModel) (rdraws : ℕ → ℕ → Bool) (decs : ℕ → ℕ → ℕ → Bool)
    (steps : ℕ) (t : ℕ) : IsingModel :=
  (List.range steps).foldl (fun s k => monte_carlo_step (decs t k) s)
    { m with spins := spin_choice (rdraws t) m.nNodes }

/-- Loop of `IsingModel.simulate` over the remaining temperatures, carrying
the position `t` in the schedule (which indexes the random draws consumed by
that iteration).  Per temperature: reset the spins, run the sweeps, then
append the record `(avg_energy, avg_magnetization, avg_correlation)` =
`(calculate_energy / n_nodes, |calculate_magnetization| / n_nodes,
np.mean(spins))`.  The temperature value itself is consumed only by the
Metropolis comparisons, which the draw family `decs` abstracts, so the loop
never inspects it; in particular the source validates nothing about it. -/
def simulate_go (m : IsingModel) (rdraws : ℕ → ℕ → Bool)
    (decs : ℕ → ℕ → ℕ → Bool) (steps : ℕ) :
    ℕ → List ℝ → List (ℚ × ℚ × ℚ)
  | _, [] => []
  | t, _temp :: rest =>
      let mf := (List.range steps).foldl (fun s k => monte_carlo_step (decs t k) s)
        { m with spins := spin_choice (rdraws t) m.nNodes }
      ((calculate_energy mf : ℚ) / (mf.nNodes : ℚ),
       |(calculate_magnetization mf : ℚ)| / (mf.nNodes : ℚ),
       (mf.spins.sum : ℚ) / (mf.spins.length : ℚ))
        :: simulate_go m rdraws decs steps (t + 1) rest

/-- `IsingModel.simulate`: iterate over the temperature schedule in the given
order, producing one observable record per temperature. -/
def simulate (m : IsingModel) (rdraws : ℕ → ℕ → Bool)
    (decs : ℕ → ℕ → ℕ → Bool) (temperatures : List ℝ)
    (steps_per_temperature : ℕ) : List (ℚ × ℚ × ℚ) :=
  simulate_go m rdraws decs steps_per_temperature 0 temperatures

/-- Every stored spin is ±1. -/
def spins_valid (m : IsingModel) : Prop :=
  ∀ v ∈ m.spins, v = 1 ∨ v = -1

/-- `self.node_to_idx`: `{node: idx for idx, node in enumerate(graph.nodes())}`.
For the (distinct) networkx nodes this assigns each node the position of its
occurrence in the node iteration order. -/
def node_to_idx {α : Type} [DecidableEq α] (nodes : List α) (node : α) : ℕ :=
  nodes.indexOf node

/-- `self.idx_to_node`: `{idx: node for node, idx in self.node_to_idx.items()}`,
the inverse table, keyed by the slots `0, …, n_nodes - 1`. -/
def idx_to_node {α : Type} (nodes : List α) (idx : ℕ) : Option α :=
  nodes.get? idx

/-! ### List helper lemmas -/

lemma getD_set_self (l : List ℤ) (i : ℕ) (a : ℤ) (h : i < l.length) :
    (l.set i a).getD i 0 = a := by
  induction l generalizing i with
  | nil => simp at h
  | cons b t ih =>
    cases i with
    | zero => rfl
    | succ j => exact ih j (Nat.lt_of_succ_lt_succ h)

lemma getD_set_ne (l : List ℤ) (i j : ℕ) (a : ℤ) (h : j ≠ i) :
    (l.set i a).getD j 0 = l.getD j 0 := by
  induction l generalizing i j with
  | nil => simp [List.set]
  | cons b t ih =>
    cases i with
    | zero =>
      cases j with
      | zero => exact absurd rfl h
      | succ k => rfl
    | succ i' =>
      cases j with
      | zero => rfl
      | succ k =>
        exact ih i' k (fun hk => h (by rw [hk]))

lemma set_getD_self (l : List ℤ) (i : ℕ) (h : i < l.length) :
    l.set i (l.getD i 0) = l := by
  induction l generalizing i with
  | nil => simp at h
  | cons b t ih =>
    cases i with
    | zero => rfl
    | succ j => simpa using ih j (Nat.lt_of_succ_lt_succ h)

lemma set_of_length_le (l : List ℤ) (i : ℕ) (a : ℤ) (h : l.length ≤ i) :
    l.set i a = l := by
  induction l generalizing i with
  | nil => rfl
  | cons b t ih =>
    cases i with
    | zero => simp at h
    | succ j => simpa using ih j (Nat.le_of_succ_le_succ h)

lemma getD_of_length_le (l : List ℤ) (i : ℕ) (h : l.length ≤ i) :
    l.getD i 0 = 0 := by
  induction l generalizing i with
  | nil => rfl
  | cons b t ih =>
    cases i with
    | zero => simp at h
    | succ j => simpa using ih j (Nat.le_of_succ_le_succ h)

lemma getD_mem (l : List ℤ) (i : ℕ) (h : i < l.length) : l.getD i 0 ∈ l := by
  induction l generalizing i with
  | nil => simp at h
  | cons b t ih =>
    cases i with
    | zero => exact List.mem_cons_self b t
    | succ j => exact List.mem_cons_of_mem b (ih j (Nat.lt_of_succ_lt_succ h))

lemma mem_of_mem_set (l : List ℤ) (i : ℕ) (a v : ℤ) (h : v ∈ l.set i a) :
    (v = a ∧ i < l.length) ∨ v ∈ l := by
  induction l generalizing i with
  | nil => simp [List.set] at h
  | cons b t ih =>
    cases i with
    | zero =>
      rcases List.mem_cons.1 h with h1 | h2
      · exact Or.inl ⟨h1, Nat.succ_pos _⟩
      · exact Or.inr (List.mem_cons_of_mem b h2)
    | succ j =>
      rcases List.mem_cons.1 h with h1 | h2
      · exact Or.inr (h1 ▸ List.mem_cons_self b t)
      · rcases ih j h2 with ⟨h3, h4⟩ | h5
        · exact Or.inl ⟨h3, Nat.succ_lt_succ h4⟩
        · exact Or.inr (List.mem_cons_of_mem b h5)

lemma foldl_sub_eq (f : ℕ × ℕ → ℤ) (l : List (ℕ × ℕ)) (c : ℤ) :
    l.foldl (fun a e => a - f e) c = c - (l.map f).sum := by
  induction l generalizing c with
  | nil => simp
  | cons e rest ih =>
    simp only [List.foldl_cons, List.map_cons, List.sum_cons, ih]
    ring

/-! ### Basic facts about the embedded operations -/

lemma calculate_energy_eq_neg_sum (m : IsingModel) :
    calculate_energy m
      = -((m.edges.map (fun e => m.spins.getD e.1 0 * m.spins.getD e.2 0)).sum) := by
  unfold calculate_energy
  rw [foldl_sub_eq]
  ring

lemma flip_spin_spins (m : IsingModel) (i : ℕ) :
    (flip_spin m i).spins = m.spins.set i (m.spins.getD i 0 * (-1)) := rfl

lemma flip_spin_flip_spin (m : IsingModel) (i : ℕ) :
    flip_spin (flip_spin m i) i = m := by
  rcases Nat.lt_or_ge i m.spins.length with h | h
  · have h1 : (flip_spin m i).spins.getD i 0 = m.spins.getD i 0 * (-1) :=
      getD_set_self m.spins i _ h
    cases m with
    | mk n es s =>
      simp only [flip_spin, IsingModel.mk.injEq, true_and]
      simp only [flip_spin] at h1
      rw [h1, List.set_set]
      have h2 : s.getD i 0 * (-1) * (-1) = s.getD i 0 := by ring
      rw [h2]
      exact set_getD_self s i h
  · cases m with
    | mk n es s =>
      simp only [flip_spin, IsingModel.mk.injEq, true_and]
      rw [set_of_length_le s i _ h]
      exact set_of_length_le s i _ h

lemma mc_trial_edges (dec : ℕ → Bool) (m : IsingModel) (i : ℕ) :
    (mc_trial dec m i).edges = m.edges := by
  simp only [mc_trial]
  split <;> rfl

lemma mc_trial_nNodes (dec : ℕ → Bool) (m : IsingModel) (i : ℕ) :
    (mc_trial dec m i).nNodes = m.nNodes := by
  simp only [mc_trial]
  split <;> rfl

lemma mc_trial_spins_length (dec : ℕ → Bool) (m : IsingModel) (i : ℕ) :
    (mc_trial dec m i).spins.length = m.spins.length := by
  simp only [mc_trial]
  split <;> simp [flip_spin]

lemma range_foldl_eq_sweepAux (dec : ℕ → Bool) (m : IsingModel) (k : ℕ) :
    (List.range k).foldl (mc_trial dec) m = sweepAux dec m k := by
  induction k with
  | zero => rfl
  | succ n ih =>
    rw [List.range_succ, List.foldl_append, ih]
    rfl

lemma monte_carlo_step_eq_sweepAux (dec : ℕ → Bool) (m : IsingModel) :
    monte_carlo_step dec m = sweepAux dec m m.nNodes :=
  range_foldl_eq_sweepAux dec m m.nNodes

lemma foldl_mc_trial_edges (dec : ℕ → Bool) (l : List ℕ) (m : IsingModel) :
    (l.foldl (mc_trial dec) m).edges = m.edges := by
  induction l generalizing m with
  | nil => rfl
  | cons i rest ih => rw [List.foldl_cons, ih, mc_trial_edges]

lemma foldl_mc_trial_nNodes (dec : ℕ → Bool) (l : List ℕ) (m : IsingModel) :
    (l.foldl (mc_trial dec) m).nNodes = m.nNodes := by
  induction l generalizing m with
  | nil => rfl
  | cons i rest ih => rw [List.foldl_cons, ih, mc_trial_nNodes]

lemma foldl_mc_trial_spins_length (dec : ℕ → Bool) (l : List ℕ) (m : IsingModel) :
    (l.foldl (mc_trial dec) m).spins.length = m.spins.length := by
  induction l generalizing m with
  | nil => rfl
  | cons i rest ih => rw [List.foldl_cons, ih, mc_trial_spins_length]

lemma sweepAux_edges (dec : ℕ → Bool) (m : IsingModel) (k : ℕ) :
    (sweepAux dec m k).edges = m.edges := by
  induction k with
  | zero => rfl
  | succ n ih => rw [sweepAux, mc_trial_edges, ih]

lemma monte_carlo_step_edges (dec : ℕ → Bool) (m : IsingModel) :
    (monte_carlo_step dec m).edges = m.edges :=
  foldl_mc_trial_edges dec (List.range m.nNodes) m

lemma monte_carlo_step_nNodes (dec : ℕ → Bool) (m : IsingModel) :
    (monte_carlo_step dec m).nNodes = m.nNodes :=
  foldl_mc_trial_nNodes dec (List.range m.nNodes) m

lemma monte_carlo_step_spins_length (dec : ℕ → Bool) (m : IsingModel) :
    (monte_carlo_step dec m).spins.length = m.spins.length :=
  foldl_mc_trial_spins_length dec (List.range m.nNodes) m

lemma calculate_energy_of_edges_nil (m : IsingModel) (h : m.edges = []) :
    calculate_energy m = 0 := by
  unfold calculate_energy
  rw [h]
  rfl

lemma calculate_energy_flip (m : IsingModel) (i : ℕ) :
    calculate_energy (flip_spin m i) = calculate_energy m + delta_energy m i := by
  unfold delta_energy
  ring

/-- Per-edge decomposition of the brute-force energy difference caused by a
single flip, against the neighbor sum of the flipped slot.  Requires that no
edge is a self-loop and that all endpoints are in range. -/
lemma sum_flip_diff (s : List ℤ) (slot : ℕ) (hslot : slot < s.length)
    (edges : List (ℕ × ℕ))
    (hv : ∀ e ∈ edges, e.1 ≠ e.2 ∧ e.1 < s.length ∧ e.2 < s.length) :
    (edges.map (fun e => s.getD e.1 0 * s.getD e.2 0)).sum
      - (edges.map (fun e => (s.set slot (s.getD slot 0 * (-1))).getD e.1 0
            * (s.set slot (s.getD slot 0 * (-1))).getD e.2 0)).sum
    = 2 * s.getD slot 0 * ((neighbors edges slot).map (fun j => s.getD j 0)).sum := by
  induction edges with
  | nil => simp [neighbors]
  | cons e rest ih =>
    have he := hv e (List.mem_cons_self e rest)
    have hrest : ∀ e2 ∈ rest, e2.1 ≠ e2.2 ∧ e2.1 < s.length ∧ e2.2 < s.length :=
      fun e2 h2 => hv e2 (List.mem_cons_of_mem e h2)
    have hih := ih hrest
    by_cases h1 : e.1 = slot
    · have h2 : e.2 ≠ slot := fun hc => he.1 (h1.trans hc.symm)
      have g1 : (s.set slot (s.getD slot 0 * (-1))).getD e.1 0
          = s.getD slot 0 * (-1) := by
        rw [h1]; exact getD_set_self s slot _ hslot
      have g2 : (s.set slot (s.getD slot 0 * (-1))).getD e.2 0 = s.getD e.2 0 :=
        getD_set_ne s slot e.2 _ h2
      have hn : neighbors (e :: rest) slot = e.2 :: neighbors rest slot := by
        simp [neighbors, h1]
      rw [List.map_cons, List.sum_cons, List.map_cons, List.sum_cons, hn,
        List.map_cons, List.sum_cons, g1, g2, h1]
      linarith [hih]
    · by_cases h2 : e.2 = slot
      · have g1 : (s.set slot (s.getD slot 0 * (-1))).getD e.1 0 = s.getD e.1 0 :=
          getD_set_ne s slot e.1 _ h1
        have g2 : (s.set slot (s.getD slot 0 * (-1))).getD e.2 0
            = s.getD slot 0 * (-1) := by
          rw [h2]; exact getD_set_self s slot _ hslot
        have hn : neighbors (e :: rest) slot = e.1 :: neighbors rest slot := by
          simp [neighbors, h1, h2]
        rw [List.map_cons, List.sum_cons, List.map_cons, List.sum_cons, hn,
          List.map_cons, List.sum_cons, g1, g2, h2]
        linarith [hih]
      · have g1 : (s.set slot (s.getD slot 0 * (-1))).getD e.1 0 = s.getD e.1 0 :=
          getD_set_ne s slot e.1 _ h1
        have g2 : (s.set slot (s.getD slot 0 * (-1))).getD e.2 0 = s.getD e.2 0 :=
          getD_set_ne s slot e.2 _ h2
        have hn : neighbors (e :: rest) slot = neighbors rest slot := by
          simp [neighbors, h1, h2]
        rw [List.map_cons, List.sum_cons, List.map_cons, List.sum_cons, hn, g1, g2]
        linarith [hih]

/-- The brute-force energy difference of one flip equals the spec's local
delta formula, on self-loop-free graphs with in-range endpoints. -/
lemma delta_energy_eq_local (m : IsingModel) (slot : ℕ)
    (hslot : slot < m.spins.length)
    (hv : ∀ e ∈ m.edges, e.1 ≠ e.2 ∧ e.1 < m.spins.length ∧ e.2 < m.spins.length) :
    delta_energy m slot = local_energy_delta m slot := by
  unfold delta_energy local_energy_delta
  rw [calculate_energy_eq_neg_sum, calculate_energy_eq_neg_sum]
  have hedges : (flip_spin m slot).edges = m.edges := rfl
  have hspins : (flip_spin m slot).spins = m.spins.set slot (m.spins.getD slot 0 * (-1)) := rfl
  rw [hedges, hspins]
  have h := sum_flip_diff m.spins slot hslot m.edges hv
  linarith [h]

/-! ### Validity, energy-monotonicity and driver lemmas -/

lemma spin_choice_length (draw : ℕ → Bool) (n : ℕ) :
    (spin_choice draw n).length = n := by
  simp [spin_choice]

lemma spin_choice_valid (draw : ℕ → Bool) (n : ℕ) :
    ∀ v ∈ spin_choice draw n, v = 1 ∨ v = -1 := by
  intro v hv
  unfold spin_choice at hv
  rcases List.mem_map.1 hv with ⟨i, _, hi⟩
  by_cases h : draw i
  · left
    rw [← hi]
    simp [h]
  · right
    rw [← hi]
    simp [h]

lemma spins_valid_flip (m : IsingModel) (i : ℕ) (h : spins_valid m) :
    spins_valid (flip_spin m i) := by
  intro v hv
  rw [flip_spin_spins] at hv
  rcases mem_of_mem_set _ _ _ _ hv with ⟨h1, h2⟩ | h3
  · rcases h _ (getD_mem m.spins i h2) with h4 | h4
    · right
      rw [h1, h4]
      ring
    · left
      rw [h1, h4]
      ring
  · exact h v h3

lemma spins_valid_mc_trial (dec : ℕ → Bool) (m : IsingModel) (i : ℕ)
    (h : spins_valid m) : spins_valid (mc_trial dec m i) := by
  simp only [mc_trial]
  split
  · exact spins_valid_flip _ _ (spins_valid_flip _ _ h)
  · exact spins_valid_flip _ _ h

lemma spins_valid_foldl (dec : ℕ → Bool) (l : List ℕ) (m : IsingModel)
    (h : spins_valid m) : spins_valid (l.foldl (mc_trial dec) m) := by
  induction l generalizing m with
  | nil => exact h
  | cons i rest ih => exact ih _ (spins_valid_mc_trial dec m i h)

lemma spins_valid_monte_carlo_step (dec : ℕ → Bool) (m : IsingModel)
    (h : spins_valid m) : spins_valid (monte_carlo_step dec m) :=
  spins_valid_foldl dec _ m h

lemma spins_valid_sweeps_foldl (f : ℕ → ℕ → Bool) (l : List ℕ) (m : IsingModel)
    (h : spins_valid m) :
    spins_valid (l.foldl (fun s k => monte_carlo_step (f k) s) m) := by
  induction l generalizing m with
  | nil => exact h
  | cons i rest ih => exact ih _ (spins_valid_monte_carlo_step (f i) m h)

lemma sweeps_foldl_nNodes (f : ℕ → ℕ → Bool) (l : List ℕ) (m : IsingModel) :
    (l.foldl (fun s k => monte_carlo_step (f k) s) m).nNodes = m.nNodes := by
  induction l generalizing m with
  | nil => rfl
  | cons i rest ih => rw [List.foldl_cons, ih, monte_carlo_step_nNodes]

lemma sweeps_foldl_spins_length (f : ℕ → ℕ → Bool) (l : List ℕ) (m : IsingModel) :
    (l.foldl (fun s k => monte_carlo_step (f k) s) m).spins.length
      = m.spins.length := by
  induction l generalizing m with
  | nil => rfl
  | cons i rest ih => rw [List.foldl_cons, ih, monte_carlo_step_spins_length]

lemma sim_state_nNodes (m : IsingModel) (rdraws : ℕ → ℕ → Bool)
    (decs : ℕ → ℕ → ℕ → Bool) (steps t : ℕ) :
    (sim_state m rdraws decs steps t).nNodes = m.nNodes :=
  sweeps_foldl_nNodes (decs t) (List.range steps) _

lemma sim_state_spins_length (m : IsingModel) (rdraws : ℕ → ℕ → Bool)
    (decs : ℕ → ℕ → ℕ → Bool) (steps t : ℕ) :
    (sim_state m rdraws decs steps t).spins.length = m.nNodes := by
  unfold sim_state
  rw [sweeps_foldl_spins_length]
  exact spin_choice_length _ _

lemma spins_valid_sim_state (m : IsingModel) (rdraws : ℕ → ℕ → Bool)
    (decs : ℕ → ℕ → ℕ → Bool) (steps t : ℕ) :
    spins_valid (sim_state m rdraws decs steps t) := by
  unfold sim_state
  apply spins_valid_sweeps_foldl
  exact fun v hv => spin_choice_valid (rdraws t) m.nNodes v hv

lemma mc_trial_energy_le (dec : ℕ → Bool) (m : IsingModel) (i : ℕ)
    (hd : dec i = true) :
    calculate_energy (mc_trial dec m i) ≤ calculate_energy m := by
  simp only [mc_trial]
  split
  · rw [flip_spin_flip_spin]
  · rename_i h
    have h0 : ¬ calculate_energy (flip_spin m i) - calculate_energy m > 0 :=
      fun hp => h ⟨hp, hd⟩
    linarith [not_lt.1 h0]

lemma foldl_mc_trial_energy_le (dec : ℕ → Bool) (hdec : ∀ i, dec i = true)
    (l : List ℕ) (m : IsingModel) :
    calculate_energy (l.foldl (mc_trial dec) m) ≤ calculate_energy m := by
  induction l generalizing m with
  | nil => exact le_refl _
  | cons i rest ih =>
    rw [List.foldl_cons]
    exact le_trans (ih _) (mc_trial_energy_le dec m i (hdec i))

lemma simulate_go_length (m : IsingModel) (rdraws : ℕ → ℕ → Bool)
    (decs : ℕ → ℕ → ℕ → Bool) (steps : ℕ) (ts : List ℝ) (t : ℕ) :
    (simulate_go m rdraws decs steps t ts).length = ts.length := by
  induction ts generalizing t with
  | nil => rfl
  | cons temp rest ih =>
    simp only [simulate_go, List.length_cons]
    rw [ih]

lemma simulate_go_getD (m : IsingModel) (rdraws : ℕ → ℕ → Bool)
    (decs : ℕ → ℕ → ℕ → Bool) (steps : ℕ) (ts : List ℝ) (t k : ℕ)
    (hk : k < ts.length) :
    (simulate_go m rdraws decs steps t ts).getD k (0, 0, 0)
      = ((calculate_energy (sim_state m rdraws decs steps (t + k)) : ℚ)
           / ((sim_state m rdraws decs steps (t + k)).nNodes : ℚ),
         |(calculate_magnetization (sim_state m rdraws decs steps (t + k)) : ℚ)|
           / ((sim_state m rdraws decs steps (t + k)).nNodes : ℚ),
         ((sim_state m rdraws decs steps (t + k)).spins.sum : ℚ)
           / ((sim_state m rdraws decs steps (t + k)).spins.length : ℚ)) := by
  induction ts generalizing t k with
  | nil => simp at hk
  | cons temp rest ih =>
    cases k with
    | zero => rfl
    | succ j =>
      have hj : j < rest.length := Nat.lt_of_succ_lt_succ hk
      have step : (simulate_go m rdraws decs steps t (temp :: rest)).getD (j + 1) (0, 0, 0)
          = (simulate_go m rdraws decs steps (t + 1) rest).getD j (0, 0, 0) := rfl
      rw [step, ih (t + 1) j hj]
      have harith : t + 1 + j = t + (j + 1) := by omega
      rw [harith]

lemma mc_trial_delta_eq (dec : ℕ → Bool) (m : IsingModel) (i : ℕ)
    (hi : i < m.spins.length)
    (hv : ∀ e ∈ m.edges, e.1 ≠ e.2 ∧ e.1 < m.spins.length ∧ e.2 < m.spins.length) :
    mc_trial_delta dec m i = mc_trial dec m i := by
  have hd : delta_energy m i = local_energy_delta m i := delta_energy_eq_local m i hi hv
  have hd2 : calculate_energy (flip_spin m i) - calculate_energy m
      = local_energy_delta m i := hd
  simp only [mc_trial, mc_trial_delta]
  rw [hd2]
  split
  · exact (flip_spin_flip_spin m i).symm
  · rfl

lemma foldl_mc_trial_delta_eq (dec : ℕ → Bool) (l : List ℕ) (m : IsingModel)
    (hl : ∀ i ∈ l, i < m.spins.length)
    (hv : ∀ e ∈ m.edges, e.1 ≠ e.2 ∧ e.1 < m.spins.length ∧ e.2 < m.spins.length) :
    l.foldl (mc_trial_delta dec) m = l.foldl (mc_trial dec) m := by
  induction l generalizing m with
  | nil => rfl
  | cons i rest ih =>
    rw [List.foldl_cons, List.foldl_cons,
      mc_trial_delta_eq dec m i (hl i (List.mem_cons_self i rest)) hv]
    apply ih
    · intro j hj
      rw [mc_trial_spins_length]
      exact hl j (List.mem_cons_of_mem i hj)
    · intro e he
      rw [mc_trial_spins_length]
      rw [mc_trial_edges] at he
      exact hv e he

/-! ### Claim theorems -/

/-- C3: for every graph and every spin assignment, `calculate_energy` returns
`-J * Σ_{(i,j)∈edges} s_i * s_j` with the sum running over the edge list
(each undirected edge of `graph.edges()` appearing exactly once, not once per
endpoint), at the default coupling constant `J = 1` — the only value the
source supports, since the `-s1*s2` accumulation hard-codes it. -/
theorem calculate_energy_eq_spec (m : IsingModel) :
    calculate_energy m = total_energy_spec 1 m := by
  rw [calculate_energy_eq_neg_sum]
  unfold total_energy_spec
  ring

/-- C2: on self-loop-free graphs with in-range endpoints, the brute-force
energy difference (`calculate_energy` after an explicit flip minus
`calculate_energy` before) equals the spec's local delta formula
`2 * J * s_slot * Σ_{j∈neighbors(slot)} s_j` at `J = 1`, for every slot; and
consequently the sweep built from the O(degree) formula produces exactly the
same state as the source's full-recomputation sweep for every family of
draws, i.e. makes identical acceptance decisions. -/
theorem local_energy_delta_correct (m : IsingModel)
    (hv : ∀ e ∈ m.edges, e.1 ≠ e.2 ∧ e.1 < m.spins.length ∧ e.2 < m.spins.length)
    (hlen : m.spins.length = m.nNodes) :
    (∀ slot, slot < m.spins.length →
        calculate_energy (flip_spin m slot) - calculate_energy m
          = local_energy_delta m slot)
    ∧ ∀ dec, monte_carlo_step_delta dec m = monte_carlo_step dec m := by
  constructor
  · intro slot hslot
    exact delta_energy_eq_local m slot hslot hv
  · intro dec
    unfold monte_carlo_step_delta monte_carlo_step
    apply foldl_mc_trial_delta_eq
    · intro i hi
      rw [hlen]
      exact List.mem_range.1 hi
    · exact hv

theorem local_energy_delta_correct_witness :
    calculate_energy (flip_spin (⟨2, [(0, 1)], [1, 1]⟩ : IsingModel) 0)
        - calculate_energy (⟨2, [(0, 1)], [1, 1]⟩ : IsingModel)
      = local_energy_delta (⟨2, [(0, 1)], [1, 1]⟩ : IsingModel) 0 :=
  (local_energy_delta_correct ⟨2, [(0, 1)], [1, 1]⟩ (by decide) rfl).1 0 (by decide)

/-- C10: `flip_spin i` negates exactly the entry at slot `i`, leaves every
other entry, the spin count, the node count and the graph untouched, and a
second `flip_spin i` restores the state exactly — the property behind the
flip-then-flip-back rejection path of `monte_carlo_step`. -/
theorem flip_spin_frame (m : IsingModel) (i : ℕ) (hi : i < m.spins.length) :
    (flip_spin m i).spins.getD i 0 = -(m.spins.getD i 0)
    ∧ (∀ j, j ≠ i → (flip_spin m i).spins.getD j 0 = m.spins.getD j 0)
    ∧ (flip_spin m i).spins.length = m.spins.length
    ∧ (flip_spin m i).nNodes = m.nNodes
    ∧ (flip_spin m i).edges = m.edges
    ∧ flip_spin (flip_spin m i) i = m := by
  refine ⟨?_, ?_, ?_, rfl, rfl, flip_spin_flip_spin m i⟩
  · rw [flip_spin_spins, getD_set_self m.spins i _ hi]
    ring
  · intro j hj
    rw [flip_spin_spins]
    exact getD_set_ne m.spins i j _ hj
  · rw [flip_spin_spins]
    exact List.length_set m.spins i _

theorem flip_spin_frame_witness :
    flip_spin (flip_spin (⟨2, [(0, 1)], [1, -1]⟩ : IsingModel) 0) 0
      = (⟨2, [(0, 1)], [1, -1]⟩ : IsingModel) :=
  (flip_spin_frame ⟨2, [(0, 1)], [1, -1]⟩ 0 (by decide)).2.2.2.2.2

/-- C9: when every uphill proposal is rejected — the `T → 0⁺` regime, where
the drawn comparison `random.random() >= exp(-ΔE/T)` always holds — the total
energy never increases: across each individual trial, across each step of the
sweep, and across the whole `monte_carlo_step`. -/
theorem low_temperature_energy_nonincreasing (m : IsingModel) (dec : ℕ → Bool)
    (hdec : ∀ i, dec i = true) :
    (∀ i, calculate_energy (mc_trial dec m i) ≤ calculate_energy m)
    ∧ (∀ k, calculate_energy (sweepAux dec m (k + 1))
        ≤ calculate_energy (sweepAux dec m k))
    ∧ calculate_energy (monte_carlo_step dec m) ≤ calculate_energy m := by
  refine ⟨fun i => mc_trial_energy_le dec m i (hdec i), fun k => ?_,
    foldl_mc_trial_energy_le dec hdec (List.range m.nNodes) m⟩
  exact mc_trial_energy_le dec (sweepAux dec m k) k (hdec k)

theorem low_temperature_energy_nonincreasing_witness :
    calculate_energy (monte_carlo_step (fun _ => true)
        (⟨2, [(0, 1)], [1, -1]⟩ : IsingModel))
      ≤ calculate_energy (⟨2, [(0, 1)], [1, -1]⟩ : IsingModel) :=
  (low_temperature_energy_nonincreasing ⟨2, [(0, 1)], [1, -1]⟩ (fun _ => true)
    (fun _ => rfl)).2.2

/-- C6: every spin slot holds exactly `+1` or `-1` after the random
initialization/reset and after any flip, trial, sweep, or state reached
inside `simulate` — membership in `{-1, +1}` is an invariant of every engine
operation. -/
theorem spins_pm_one_invariant :
    (∀ (draw : ℕ → Bool) (n : ℕ), ∀ v ∈ spin_choice draw n, v = 1 ∨ v = -1)
    ∧ (∀ (nodes : List ℕ) (edges : List (ℕ × ℕ)) (draw : ℕ → Bool),
        spins_valid (ising_init nodes edges draw))
    ∧ (∀ (m : IsingModel) (i : ℕ), spins_valid m → spins_valid (flip_spin m i))
    ∧ (∀ (dec : ℕ → Bool) (m : IsingModel) (i : ℕ),
        spins_valid m → spins_valid (mc_trial dec m i))
    ∧ (∀ (dec : ℕ → Bool) (m : IsingModel),
        spins_valid m → spins_valid (monte_carlo_step dec m))
    ∧ (∀ (m : IsingModel) (rdraws : ℕ → ℕ → Bool) (decs : ℕ → ℕ → ℕ → Bool)
        (steps t : ℕ), spins_valid (sim_state m rdraws decs steps t)) := by
  refine ⟨spin_choice_valid, ?_, spins_valid_flip, spins_valid_mc_trial,
    spins_valid_monte_carlo_step, spins_valid_sim_state⟩
  intro nodes edges draw v hv
  exact spin_choice_valid draw nodes.length v hv

theorem spins_pm_one_invariant_witness :
    spins_valid (monte_carlo_step (fun _ => true)
      (⟨2, [(0, 1)], [1, -1]⟩ : IsingModel)) :=
  spins_pm_one_invariant.2.2.2.2.1 (fun _ => true) ⟨2, [(0, 1)], [1, -1]⟩
    (by unfold spins_valid; decide)

/-- C1: for every graph, every temperature `T > 0` and every family of
uniform draws `u` (reflected in the comparison outcomes `dec i ↔
exp(-ΔE_i/T) ≤ u i`), one `monte_carlo_step` is exactly the chain of trials
at slots `0, 1, …, n_nodes - 1` in ascending order (`sweepAux`), and at each
visited slot `i` the trial on the current, already-mutated state flips the
spin at `i` iff `ΔE ≤ 0`, or `ΔE > 0` and `u i < exp(-ΔE/T)`; on rejection
the state after the trial is exactly the state before it. -/
theorem monte_carlo_step_metropolis (m : IsingModel) (dec : ℕ → Bool)
    (T : ℝ) (u : ℕ → ℝ) (hT : 0 < T)
    (hdec : ∀ i, i < m.nNodes →
      (dec i = true ↔
        Real.exp (-(delta_energy (sweepAux dec m i) i : ℝ) / T) ≤ u i)) :
    monte_carlo_step dec m = sweepAux dec m m.nNodes
    ∧ ∀ i, i < m.nNodes →
        ((delta_energy (sweepAux dec m i) i ≤ 0
            ∨ u i < Real.exp (-(delta_energy (sweepAux dec m i) i : ℝ) / T)) →
          sweepAux dec m (i + 1) = flip_spin (sweepAux dec m i) i)
        ∧ (0 < delta_energy (sweepAux dec m i) i
            ∧ Real.exp (-(delta_energy (sweepAux dec m i) i : ℝ) / T) ≤ u i →
          sweepAux dec m (i + 1) = sweepAux dec m i) := by
  refine ⟨monte_carlo_step_eq_sweepAux dec m, fun i hi => ⟨?_, ?_⟩⟩
  · intro hacc
    show mc_trial dec (sweepAux dec m i) i = flip_spin (sweepAux dec m i) i
    have hδ : calculate_energy (flip_spin (sweepAux dec m i) i)
        - calculate_energy (sweepAux dec m i)
        = delta_energy (sweepAux dec m i) i := rfl
    simp only [mc_trial]
    rcases hacc with hle | hlt
    · have hc : ¬(calculate_energy (flip_spin (sweepAux dec m i) i)
          - calculate_energy (sweepAux dec m i) > 0 ∧ dec i = true) := by
        rintro ⟨hpos, _⟩
        rw [hδ] at hpos
        exact absurd hpos (not_lt.2 hle)
      rw [if_neg hc]
    · have hc : ¬(calculate_energy (flip_spin (sweepAux dec m i) i)
          - calculate_energy (sweepAux dec m i) > 0 ∧ dec i = true) := by
        rintro ⟨_, hdt⟩
        have := (hdec i hi).1 hdt
        linarith
      rw [if_neg hc]
  · rintro ⟨hpos, hge⟩
    show mc_trial dec (sweepAux dec m i) i = sweepAux dec m i
    have hδ : calculate_energy (flip_spin (sweepAux dec m i) i)
        - calculate_energy (sweepAux dec m i)
        = delta_energy (sweepAux dec m i) i := rfl
    have hdt : dec i = true := (hdec i hi).2 hge
    simp only [mc_trial]
    rw [if_pos ⟨by rw [hδ]; exact hpos, hdt⟩]
    exact flip_spin_flip_spin (sweepAux dec m i) i

theorem monte_carlo_step_metropolis_witness :
    sweepAux (fun _ => true) (⟨1, [], [1]⟩ : IsingModel) (0 + 1)
      = flip_spin (sweepAux (fun _ => true) (⟨1, [], [1]⟩ : IsingModel) 0) 0 :=
  ((monte_carlo_step_metropolis ⟨1, [], [1]⟩ (fun _ => true) 1 (fun _ => 1)
      (by norm_num)
      (by
        intro i hi
        have hi0 : i = 0 := Nat.lt_one_iff.1 hi
        subst hi0
        have hd0 : delta_energy
            (sweepAux (fun _ => true) (⟨1, [], [1]⟩ : IsingModel) 0) 0 = 0 := by
          decide
        rw [hd0]
        norm_num [Real.exp_zero])).2 0 (by decide)).1
    (Or.inl (by decide))

/-- C7: the two index tables built in `__init__` form a bijection on any
duplicate-free node list: `idx_to_node[node_to_idx[node]] == node` for every
node, every node gets exactly one slot in `[0, n_nodes)` (the assignment is
injective), and every slot in `[0, n_nodes)` maps back to exactly one node. -/
theorem node_index_bijection {α : Type} [DecidableEq α] (nodes : List α)
    (h : nodes.Nodup) :
    (∀ a ∈ nodes, node_to_idx nodes a < nodes.length
        ∧ idx_to_node nodes (node_to_idx nodes a) = some a)
    ∧ (∀ a b, a ∈ nodes → b ∈ nodes →
        node_to_idx nodes a = node_to_idx nodes b → a = b)
    ∧ (∀ i, i < nodes.length →
        ∃! a, a ∈ nodes ∧ node_to_idx nodes a = i) := by
  refine ⟨fun a ha => ?_, fun a b ha hb hab => ?_, fun i hi => ?_⟩
  · have hlt : nodes.indexOf a < nodes.length := List.indexOf_lt_length.2 ha
    refine ⟨hlt, ?_⟩
    unfold idx_to_node node_to_idx
    rw [List.get?_eq_get hlt, List.indexOf_get hlt]
  · have h1 : nodes.indexOf a < nodes.length := List.indexOf_lt_length.2 ha
    have h2 : nodes.indexOf b < nodes.length := List.indexOf_lt_length.2 hb
    have e1 : nodes.get ⟨nodes.indexOf a, h1⟩ = a := List.indexOf_get h1
    have e2 : nodes.get ⟨nodes.indexOf b, h2⟩ = b := List.indexOf_get h2
    rw [← e1, ← e2]
    exact congrArg nodes.get (Fin.ext hab)
  · refine ⟨nodes.get ⟨i, hi⟩, ⟨List.get_mem nodes i hi, ?_⟩, ?_⟩
    · exact List.get_indexOf h ⟨i, hi⟩
    · rintro b ⟨hbmem, hbidx⟩
      have hb : nodes.indexOf b < nodes.length := List.indexOf_lt_length.2 hbmem
      have eb : nodes.get ⟨nodes.indexOf b, hb⟩ = b := List.indexOf_get hb
      rw [← eb]
      exact congrArg nodes.get (Fin.ext hbidx)

theorem node_index_bijection_witness :
    node_to_idx [3, 5] 5 < ([3, 5] : List ℕ).length
      ∧ idx_to_node [3, 5] (node_to_idx [3, 5] 5) = some 5 :=
  (node_index_bijection [3, 5] (by decide)).1 5 (by decide)

/-- C4: on a nonempty graph, for every schedule of positive temperatures
`simulate` produces exactly one observable record per input temperature, in
the input order (and the empty schedule yields the empty output without
error); the record at position `t` is computed from the state reached after a
fresh random reset followed by `steps_per_temperature` sweeps at that
temperature, with `mean_energy = total_energy / n_nodes`,
`mean_abs_magnetization = |Σ spins| / n_nodes` and
`mean_spin = Σ spins / n_nodes`. -/
theorem simulate_records (m : IsingModel) (rdraws : ℕ → ℕ → Bool)
    (decs : ℕ → ℕ → ℕ → Bool) (temps : List ℝ) (steps : ℕ)
    (hn : 0 < m.nNodes) (hpos : ∀ x ∈ temps, (0:ℝ) < x) :
    simulate m rdraws decs [] steps = []
    ∧ (simulate m rdraws decs temps steps).length = temps.length
    ∧ ∀ t, t < temps.length →
        (simulate m rdraws decs temps steps).getD t (0, 0, 0)
          = ((calculate_energy (sim_state m rdraws decs steps t) : ℚ)
               / (m.nNodes : ℚ),
             |(calculate_magnetization (sim_state m rdraws decs steps t) : ℚ)|
               / (m.nNodes : ℚ),
             (calculate_magnetization (sim_state m rdraws decs steps t) : ℚ)
               / (m.nNodes : ℚ)) := by
  refine ⟨rfl, simulate_go_length m rdraws decs steps temps 0, fun t ht => ?_⟩
  have hraw := simulate_go_getD m rdraws decs steps temps 0 t ht
  have hz : 0 + t = t := Nat.zero_add t
  rw [hz] at hraw
  have h1 : (sim_state m rdraws decs steps t).nNodes = m.nNodes :=
    sim_state_nNodes m rdraws decs steps t
  have h2 : (sim_state m rdraws decs steps t).spins.length = m.nNodes :=
    sim_state_spins_length m rdraws decs steps t
  have h3 : (sim_state m rdraws decs steps t).spins.sum
      = calculate_magnetization (sim_state m rdraws decs steps t) := rfl
  rw [show simulate m rdraws decs temps steps
      = simulate_go m rdraws decs steps 0 temps from rfl, hraw, h1, h2, h3]

theorem simulate_records_witness :
    (simulate (⟨1, [], [1]⟩ : IsingModel) (fun _ _ => true) (fun _ _ _ => true)
      [(1:ℝ)] 1).length = 1 :=
  (simulate_records ⟨1, [], [1]⟩ (fun _ _ => true) (fun _ _ _ => true)
    [(1:ℝ)] 1 (by decide)
    (by
      intro x hx
      rw [List.mem_singleton] at hx
      rw [hx]
      norm_num)).2.1

/-- C5 counterexample: the claim says `simulate` with the schedule `[0.0]`
fails with `InvalidTemperatureError` and appends no record.  The source has
no such exception and no temperature check: at `T = 0`, numpy evaluates
`-delta / 0.0` to `-inf` with only a `RuntimeWarning`, `np.exp(-inf) = 0.0`,
and `random.random() >= 0.0` is always true, so every uphill trial is
rejected (the draw family that is constantly `true`) and the run completes.
Concretely, on a one-node graph `simulate` over `[0.0]` returns the full
one-record output `(0, 1, -1)` instead of aborting with no records. -/
theorem simulate_zero_temperature_counterexample :
    (simulate (⟨1, [], [1]⟩ : IsingModel) (fun _ _ => true) (fun _ _ _ => true)
        [(0:ℝ)] 1).length = 1
    ∧ (simulate (⟨1, [], [1]⟩ : IsingModel) (fun _ _ => true) (fun _ _ _ => true)
        [(0:ℝ)] 1).getD 0 (0, 0, 0) = (0, 1, -1) := by
  constructor
  · exact simulate_go_length _ _ _ 1 [(0:ℝ)] 0
  · have h1 : sim_state (⟨1, [], [1]⟩ : IsingModel) (fun _ _ => true)
        (fun _ _ _ => true) 1 0 = (⟨1, [], [-1]⟩ : IsingModel) := by
      decide
    have hraw := simulate_go_getD (⟨1, [], [1]⟩ : IsingModel) (fun _ _ => true)
      (fun _ _ _ => true) 1 [(0:ℝ)] 0 0 (by simp)
    show (simulate_go (⟨1, [], [1]⟩ : IsingModel) (fun _ _ => true)
        (fun _ _ _ => true) 1 0 [(0:ℝ)]).getD 0 (0, 0, 0) = (0, 1, -1)
    rw [hraw, h1]
    have e1 : calculate_energy (⟨1, [], [-1]⟩ : IsingModel) = 0 := by decide
    have e2 : calculate_magnetization (⟨1, [], [-1]⟩ : IsingModel) = -1 := by
      decide
    have e3 : (⟨1, [], [-1]⟩ : IsingModel).spins.sum = -1 := by decide
    rw [e1, e2, e3]
    norm_num

/-- C5 amended: `simulate` performs no temperature validation.  Even when the
schedule contains a non-positive temperature it aborts nothing and returns
exactly one record per scheduled temperature (at `T = 0` the acceptance
probability for uphill moves underflows to `0`, so such trials merely
reject). -/
theorem simulate_no_temperature_validation (m : IsingModel)
    (rdraws : ℕ → ℕ → Bool) (decs : ℕ → ℕ → ℕ → Bool) (temps : List ℝ)
    (steps : ℕ) (hbad : ∃ x ∈ temps, x ≤ 0) :
    (simulate m rdraws decs temps steps).length = temps.length :=
  simulate_go_length m rdraws decs steps temps 0

theorem simulate_no_temperature_validation_witness :
    (simulate (⟨1, [], [1]⟩ : IsingModel) (fun _ _ => true) (fun _ _ _ => true)
      [(0:ℝ)] 1).length = 1 :=
  simulate_no_temperature_validation ⟨1, [], [1]⟩ (fun _ _ => true)
    (fun _ _ _ => true) [(0:ℝ)] 1 ⟨0, List.mem_singleton.2 rfl, le_refl 0⟩

/-- C8 counterexample: the claim says building the engine on a zero-node
graph fails with `InvalidGraphError`.  `__init__` contains no check and no
such exception exists in the source: on the empty graph construction
succeeds, yielding `n_nodes = 0`, empty index maps and an empty spin array. -/
theorem init_empty_graph_counterexample :
    ising_init [] [] (fun _ => true) = (⟨0, [], []⟩ : IsingModel) := by
  decide

/-- C8 amended: construction never fails and performs no validation: for
every graph (zero-node graphs included) `__init__` succeeds, recording the
node count, one resolved edge per input edge, and one random ±1 spin per
node; it has no side effects beyond this allocation. -/
theorem ising_init_total (nodes : List ℕ) (edges : List (ℕ × ℕ))
    (draw : ℕ → Bool) :
    (ising_init nodes edges draw).nNodes = nodes.length
    ∧ (ising_init nodes edges draw).spins.length = nodes.length
    ∧ spins_valid (ising_init nodes edges draw)
    ∧ (ising_init nodes edges draw).edges.length = edges.length := by
  refine ⟨rfl, spin_choice_length draw nodes.length, ?_, ?_⟩
  · exact fun v hv => spin_choice_valid draw nodes.length v hv
  · simp [ising_init]

end IsingSim
